import Mathlib

/-!
Verification of the ACME v2 client engine in `src/lib/acme.js` (sam-lord/acme.js).

The file shallowly embeds the parts of the source the claims are about:

* the nonce cache (`ACME._setNonce`, `ACME._getNonce`, `ACME._request`) --
  claims about harvesting, single use, LIFO order and expiry;
* the JWS protected-header assembly of `ACME._jwsRequest`;
* the challenge polling loop of `ACME._postChallenge` (`pollStatus`,
  `respondToChallenge`, `deactivate`);
* the order finalization loop of `ACME._finalizeOrder` (`pollCert`);
* the Auth derivation of `ACME._challengeToAuth` together with
  `Crypto._sha`, `Enc.bufToBase64` and `Enc.bufToUrlBase64`;
* the ToS agreement step of `ACME._registerAccount` (`agree`);
* the PEM chain utilities `ACME.formatPemChain` and `ACME.splitPemChain`.

JavaScript strings are modelled as Lean `String` (or `List Char` for the
character-level PEM utilities), `Date.now()` timestamps as `Nat`
milliseconds, and the injected external collaborators (HTTP transport,
crypto primitives, SHA-256 digest, JWK thumbprint, CSR generation) as
function parameters, exactly as the source treats them as injected
dependencies.
-/

namespace AcmeJs

/-! ### Nonce cache: `ACME._setNonce`, `ACME._getNonce` (src/lib/acme.js:81-100) -/

/-- One entry of `me._nonces`: `_setNonce` stores `{ nonce: nonce, createdAt: Date.now() }`. -/
structure NonceEntry where
  nonce : String
  createdAt : Nat
deriving DecidableEq, Repr

/-- `me._nonces`, initialized to `[]` by `ACME.create`. -/
abbrev NonceCache := List NonceEntry

/-- `ACME._setNonce(me, nonce)`: `me._nonces.unshift({ nonce, createdAt: Date.now() })`
(push onto the FRONT of the list). -/
def ACME_setNonce (now : Nat) (cache : NonceCache) (n : String) : NonceCache :=
  { nonce := n, createdAt := now } :: cache

/-- The expiry test of `_getNonce`: `Date.now() - nonce.createdAt > (15 * 60 * 1000)`.
Truncated `Nat` subtraction agrees with JS here: for `createdAt > now` JS gets a
negative number, which is not `> 900000`, and `Nat` gets `0`. -/
def nonceExpired (now : Nat) (e : NonceEntry) : Bool :=
  900000 < now - e.createdAt

/-- The `while (true)` loop of `ACME._getNonce`: repeatedly `shift()` the front
entry; a missing entry ends the loop with no nonce; an expired entry is
discarded and the loop continues; a fresh entry ends the loop. Returns the
found entry (if any) and the cache as the loop leaves it. -/
def getNonceCache (now : Nat) : NonceCache → Option NonceEntry × NonceCache
  | [] => (none, [])
  | e :: es => if nonceExpired now e then getNonceCache now es else (some e, es)

/-- The value `ACME._getNonce` resolves with: on a cache hit the promise resolves
with the stored entry OBJECT (`Promise.resolve(nonce)` where `nonce` is the
`{ nonce, createdAt }` record), and only on the HEAD-newNonce path with the bare
`replay-nonce` header string. -/
inductive NonceVal
  | entry (e : NonceEntry)
  | str (s : String)
deriving DecidableEq, Repr

/-- `ACME._getNonce(me)`: try the cache; when it is empty (or everything in it
expired), issue `HEAD newNonce` and use `resp.headers['replay-nonce']`
(`freshHeader` stands for that response header). Returns the resolved value and
the cache after the call. The HEAD response itself is NOT pushed onto the cache
(the HEAD goes through `me.request` directly, not through `ACME._request`). -/
def ACME_getNonce (now : Nat) (cache : NonceCache) (freshHeader : String) :
    NonceVal × NonceCache :=
  match getNonceCache now cache with
  | (some e, rest) => (NonceVal.entry e, rest)
  | (none, rest) => (NonceVal.str freshHeader, rest)

/-! ### `ACME._request` and the direct `me.request` call sites -/

/-- The part of an HTTP response the nonce layer looks at. -/
structure HttpResp where
  statusCode : Nat
  replayNonce : Option String
  body : String
deriving DecidableEq, Repr

/-- `ACME._request(me, opts)` (src/lib/acme.js:898-912): after the transport
resolves, `if (resp.headers['replay-nonce']) ACME._setNonce(me, resp.headers['replay-nonce'])`,
then the response is returned.  All signed JWS POSTs go through here. -/
def ACME_request (now : Nat) (cache : NonceCache) (resp : HttpResp) :
    NonceCache × HttpResp :=
  match resp.replayNonce with
  | some n => (ACME_setNonce now cache n, resp)
  | none => (cache, resp)

/-- Models the call sites that invoke the injected transport `me.request`
directly, NOT through `ACME._request`: the directory GET (line 79), the
newNonce HEAD (line 94), the challenge-poll GET in `pollStatus` (line 478),
the certificate GET (line 798) and the http-01 self-test GET (line 33). At
those sites the response is handed back with no nonce handling: no code there
touches `me._nonces`. -/
def directTransportRequest (cache : NonceCache) (resp : HttpResp) :
    NonceCache × HttpResp :=
  (cache, resp)

/-- The property claim C1 asserts of every request path: a `replay-nonce`
response header ends up in the nonce cache that the call returns. -/
def harvestsNonce (f : NonceCache → HttpResp → NonceCache × HttpResp) : Prop :=
  ∀ cache resp n, resp.replayNonce = some n →
    n ∈ (f cache resp).1.map NonceEntry.nonce

/-! ### `ACME._jwsRequest` protected-header assembly (src/lib/acme.js:880-896) -/

/-- The fields of the JWS protected header that `_jwsRequest` itself assigns:
`bigopts.protected.nonce = nonce; bigopts.protected.url = bigopts.url`.  The
`nonce` field receives whatever `_getNonce` resolved with -- the stored record
object on a cache hit, the bare header string otherwise. -/
structure ProtectedHeader where
  nonce : NonceVal
  url : String
deriving DecidableEq, Repr

/-- The deterministic prefix of `ACME._jwsRequest(me, bigopts)`: obtain a nonce
via `_getNonce` and assign it, together with the request url, into the
protected header handed to `Keypairs.signJws`. -/
def jwsProtected (now : Nat) (cache : NonceCache) (freshHeader : String)
    (url : String) : ProtectedHeader × NonceCache :=
  match ACME_getNonce now cache freshHeader with
  | (nv, rest) => ({ nonce := nv, url := url }, rest)

/-! ### Traces of nonce-cache operations (claim C2) -/

/-- One interaction with the nonce cache, as seen from the cache:
`push` models `ACME._setNonce` (a `replay-nonce` harvested by `ACME._request`
at time `t`), `take` models `ACME._getNonce` at time `now`, where
`freshHeader` is the `replay-nonce` header a `HEAD newNonce` would return if
the cache turns out to be empty. -/
inductive NonceOp
  | push (v : String) (t : Nat)
  | take (now : Nat) (freshHeader : String)
deriving DecidableEq, Repr

/-- Every nonce value the server hands the client over a run: pushed
`replay-nonce` headers and the `HEAD newNonce` headers. -/
def opServerValues : List NonceOp → List String
  | [] => []
  | NonceOp.push v _ :: rest => v :: opServerValues rest
  | NonceOp.take _ f :: rest => f :: opServerValues rest

/-- Run a sequence of cache operations.  Returns the final cache and, in
order, the nonce value dispensed to each signing operation (for a cache hit,
the stored entry's value; otherwise the fresh HEAD header). -/
def runNonceOps : List NonceOp → NonceCache → NonceCache × List String
  | [], c => (c, [])
  | NonceOp.push v t :: rest, c => runNonceOps rest (ACME_setNonce t c v)
  | NonceOp.take now f :: rest, c =>
    match ACME_getNonce now c f with
    | (nv, c') =>
      let r := runNonceOps rest c'
      (r.1, (match nv with
             | NonceVal.entry e => e.nonce
             | NonceVal.str s => s) :: r.2)

/-! ### Structure lemmas about the cache loop -/

theorem getNonceCache_some (now : Nat) :
    ∀ (c : NonceCache) (e : NonceEntry) (rest : NonceCache),
      getNonceCache now c = (some e, rest) →
      ∃ pre, c = pre ++ e :: rest ∧ (∀ x ∈ pre, nonceExpired now x = true) ∧
        nonceExpired now e = false := by
  intro c
  induction c with
  | nil => intro e rest h; simp [getNonceCache] at h
  | cons a c ih =>
    intro e rest h
    by_cases ha : nonceExpired now a
    · simp only [getNonceCache, ha, if_pos] at h
      obtain ⟨pre, hpre, hall, hfresh⟩ := ih e rest h
      exact ⟨a :: pre, by simp [hpre], by simpa [ha] using hall, hfresh⟩
    · simp only [getNonceCache, ha, if_neg, if_false] at h
      obtain ⟨he, hrest⟩ := Prod.mk.injEq _ _ _ _ ▸ h
      cases he; cases hrest
      refine ⟨[], by simp, by simp, by simpa using ha⟩

theorem getNonceCache_none (now : Nat) :
    ∀ (c : NonceCache) (rest : NonceCache),
      getNonceCache now c = (none, rest) →
      rest = [] ∧ ∀ x ∈ c, nonceExpired now x = true := by
  intro c
  induction c with
  | nil =>
    intro rest h
    simp only [getNonceCache, Prod.mk.injEq] at h
    exact ⟨h.2.symm, by simp⟩
  | cons a c ih =>
    intro rest h
    by_cases ha : nonceExpired now a
    · simp only [getNonceCache, ha, if_pos] at h
      obtain ⟨hr, hall⟩ := ih rest h
      exact ⟨hr, by simpa [ha] using hall⟩
    · simp [getNonceCache, ha] at h

theorem ACME_getNonce_hit {now : Nat} {c : NonceCache} {e : NonceEntry}
    {rest : NonceCache} (f : String) (h : getNonceCache now c = (some e, rest)) :
    ACME_getNonce now c f = (NonceVal.entry e, rest) := by
  simp [ACME_getNonce, h]

theorem ACME_getNonce_miss {now : Nat} {c : NonceCache} {rest : NonceCache}
    (f : String) (h : getNonceCache now c = (none, rest)) :
    ACME_getNonce now c f = (NonceVal.str f, rest) := by
  simp [ACME_getNonce, h]

/-- The single-use invariant, generalized over the nonces already dispensed
(`disp`) and the current cache: if everything in sight is pairwise distinct,
the whole run dispenses pairwise distinct nonces. -/
theorem runNonceOps_nodup :
    ∀ (ops : List NonceOp) (c : NonceCache) (disp : List String),
      (disp ++ c.map NonceEntry.nonce ++ opServerValues ops).Nodup →
      (disp ++ (runNonceOps ops c).2).Nodup := by
  intro ops
  induction ops with
  | nil =>
    intro c disp h
    simp only [runNonceOps, List.append_nil]
    exact ((h.sublist (by simp)) : disp.Nodup)
  | cons op rest ih =>
    intro c disp h
    cases op with
    | push v t =>
      simp only [runNonceOps]
      apply ih
      show (disp ++ (v :: c.map NonceEntry.nonce) ++ opServerValues rest).Nodup
      -- rearrange: the pushed value moves from the op stream into the cache
      have hperm : (disp ++ (v :: c.map NonceEntry.nonce) ++ opServerValues rest).Perm
          (disp ++ c.map NonceEntry.nonce ++ (v :: opServerValues rest)) := by
        simp only [List.cons_append, List.append_assoc]
        refine List.perm_middle.trans ?_
        simp only [← List.append_assoc]
        exact (@List.perm_middle _ v (disp ++ c.map NonceEntry.nonce)
          (opServerValues rest)).symm
      refine hperm.symm.nodup ?_
      simpa [opServerValues] using h
    | take now f =>
      rcases hg : getNonceCache now c with ⟨onc, c''⟩
      cases onc with
      | some e =>
        obtain ⟨pre, hc, -, -⟩ := getNonceCache_some now c e c'' hg
        simp only [runNonceOps, ACME_getNonce_hit f hg]
        have hstep := ih c'' (disp ++ [e.nonce])
        simp only [List.append_assoc, List.singleton_append] at hstep ⊢
        apply hstep
        -- target is a sublist of the hypothesis list (drop the expired
        -- entries `pre` and the unused fresh header `f`)
        refine List.Nodup.sublist ?_ h
        subst hc
        simp only [List.map_append, List.map_cons, opServerValues,
          List.append_assoc, List.cons_append]
        refine List.Sublist.append (List.Sublist.refl disp) ?_
        refine List.Sublist.trans ?_
          (List.sublist_append_right (pre.map NonceEntry.nonce) _)
        exact List.Sublist.cons₂ _ (List.Sublist.append (List.Sublist.refl _)
          (List.sublist_cons_self _ _))
      | none =>
        obtain ⟨hnil, -⟩ := getNonceCache_none now c c'' hg
        subst hnil
        simp only [runNonceOps, ACME_getNonce_miss f hg]
        have hstep := ih [] (disp ++ [f])
        simp only [List.append_assoc, List.singleton_append, List.map_nil,
          List.nil_append] at hstep ⊢
        apply hstep
        refine List.Nodup.sublist ?_ h
        simp only [opServerValues, List.append_assoc]
        refine List.Sublist.append (List.Sublist.refl disp) ?_
        exact List.sublist_append_right (c.map NonceEntry.nonce) _

/-! ### Claim theorems C1-C4 -/

/-- C1 (counterexample): the challenge-poll GET of `pollStatus`
(src/lib/acme.js:478) calls the transport `me.request` directly, not
`ACME._request`; a `replay-nonce` header on that response is NOT pushed onto
the nonce cache, contradicting the claim that every response of every request
path is scanned and harvested. -/
theorem c1_direct_get_does_not_harvest : ¬ harvestsNonce directTransportRequest := by
  intro h
  have := h [] (HttpResp.mk 200 (some "abc") "") "abc" rfl
  simp [directTransportRequest] at this

/-- C1 (amended): only responses that pass through `ACME._request` -- that is,
the signed JWS POSTs issued by `ACME._jwsRequest` -- have a `replay-nonce`
header pushed onto the nonce cache before the response is returned; the call
sites that invoke the transport directly (directory GET, newNonce HEAD,
challenge-poll GET, certificate GET, self-test GET) return the response with
the nonce cache untouched. -/
theorem c1_jws_requests_harvest :
    (∀ now cache resp n, resp.replayNonce = some n →
      n ∈ (ACME_request now cache resp).1.map NonceEntry.nonce)
    ∧ (∀ cache resp, directTransportRequest cache resp = (cache, resp)) := by
  constructor
  · intro now cache resp n h
    simp [ACME_request, h, ACME_setNonce]
  · intro cache resp
    rfl

theorem c1_jws_requests_harvest_witness :
    (HttpResp.mk 200 (some "abc") "").replayNonce = some "abc" ∧
    "abc" ∈ (ACME_request 5 [] (HttpResp.mk 200 (some "abc") "")).1.map NonceEntry.nonce :=
  ⟨rfl, c1_jws_requests_harvest.1 5 [] (HttpResp.mk 200 (some "abc") "") "abc" rfl⟩

/-- C2: over any run of cache interactions in which the server-issued nonce
values are pairwise distinct, the values dispensed to the signing operations
are pairwise distinct: `_getNonce` removes a cached nonce (shift) before it is
handed to the signer, so each cached nonce is dispensed to at most one signing
operation and no nonce value appears in two outgoing protected headers. -/
theorem c2_nonce_single_use (ops : List NonceOp)
    (h : (opServerValues ops).Nodup) : ((runNonceOps ops []).2).Nodup := by
  simpa using runNonceOps_nodup ops [] [] (by simpa using h)

theorem c2_nonce_single_use_witness :
    (opServerValues
        [NonceOp.push "a" 0, NonceOp.take 10 "f", NonceOp.take 20 "g",
         NonceOp.push "b" 30, NonceOp.take 40 "h"]).Nodup ∧
    ((runNonceOps
        [NonceOp.push "a" 0, NonceOp.take 10 "f", NonceOp.take 20 "g",
         NonceOp.push "b" 30, NonceOp.take 40 "h"] []).2).Nodup :=
  ⟨by decide, c2_nonce_single_use _ (by decide)⟩

/-- C3: `_setNonce` pushes onto the front of the cache and `_getNonce` shifts
from the front (LIFO), discarding every popped entry older than 15 minutes
(15*60*1000 ms) and trying the next; when the cache is or becomes empty the
HEAD-newNonce `replay-nonce` header is used instead; consequently a dispensed
cached nonce is never older than 15 minutes. -/
theorem c3_nonce_acquisition (now : Nat) (c : NonceCache) (f : String) :
    (∀ v t, ACME_setNonce t c v = NonceEntry.mk v t :: c)
    ∧ (∀ e rest, getNonceCache now c = (some e, rest) →
        ∃ pre, c = pre ++ e :: rest ∧ (∀ x ∈ pre, nonceExpired now x = true) ∧
          nonceExpired now e = false)
    ∧ ((∀ x ∈ c, nonceExpired now x = true) →
        (ACME_getNonce now c f).1 = NonceVal.str f)
    ∧ (∀ e rest, ACME_getNonce now c f = (NonceVal.entry e, rest) →
        now - e.createdAt ≤ 900000) := by
  refine ⟨fun v t => rfl, getNonceCache_some now c, ?_, ?_⟩
  · intro hall
    rcases hg : getNonceCache now c with ⟨onc, c''⟩
    cases onc with
    | some e =>
      obtain ⟨pre, hc, -, hfresh⟩ := getNonceCache_some now c e c'' hg
      have : nonceExpired now e = true := hall e (by simp [hc])
      simp [this] at hfresh
    | none => simp [ACME_getNonce_miss f hg]
  · intro e rest h
    rcases hg : getNonceCache now c with ⟨onc, c''⟩
    cases onc with
    | some e' =>
      obtain ⟨pre, -, -, hfresh⟩ := getNonceCache_some now c e' c'' hg
      have heq := (ACME_getNonce_hit f hg).symm.trans h
      simp only [Prod.mk.injEq, NonceVal.entry.injEq] at heq
      obtain ⟨he, -⟩ := heq
      subst he
      simpa [nonceExpired, Nat.not_lt] using hfresh
    | none =>
      have := (ACME_getNonce_miss f hg).symm.trans h
      simp at this

theorem c3_nonce_acquisition_witness :
    getNonceCache 1000000 [NonceEntry.mk "a" 50, NonceEntry.mk "b" 500000] =
      (some (NonceEntry.mk "b" 500000), []) ∧
    (∃ pre, [NonceEntry.mk "a" 50, NonceEntry.mk "b" 500000] =
        pre ++ NonceEntry.mk "b" 500000 :: [] ∧
      (∀ x ∈ pre, nonceExpired 1000000 x = true) ∧
      nonceExpired 1000000 (NonceEntry.mk "b" 500000) = false) ∧
    1000000 - 500000 ≤ 900000 :=
  ⟨by decide,
   (c3_nonce_acquisition 1000000 [NonceEntry.mk "a" 50, NonceEntry.mk "b" 500000]
      "hdr").2.1 _ _ (by decide),
   (c3_nonce_acquisition 1000000 [NonceEntry.mk "a" 50, NonceEntry.mk "b" 500000]
      "hdr").2.2.2 (NonceEntry.mk "b" 500000) []
      (by simp [ACME_getNonce, getNonceCache, nonceExpired])⟩

/-- C4: the two branches of `_getNonce` resolve with values of different
shapes, and the cache-hit shape is the stored record, not the nonce string:
with a fresh entry at the front of the cache, `_jwsRequest` assigns the stored
`{ nonce, createdAt }` record as the protected header's `nonce` field; only
with an empty cache is the bare `replay-nonce` header string assigned. -/
theorem c4_protected_nonce_shape (now : Nat) (f url : String) :
    (∀ (e : NonceEntry) (rest : NonceCache), nonceExpired now e = false →
      ((jwsProtected now (e :: rest) f url).1).nonce = NonceVal.entry e)
    ∧ ((jwsProtected now [] f url).1).nonce = NonceVal.str f := by
  constructor
  · intro e rest hfresh
    simp [jwsProtected, ACME_getNonce, getNonceCache, hfresh]
  · simp [jwsProtected, ACME_getNonce, getNonceCache]

theorem c4_protected_nonce_shape_witness :
    nonceExpired 1000 (NonceEntry.mk "n1" 900) = false ∧
    ((jwsProtected 1000 [NonceEntry.mk "n1" 900] "hdr" "https://ca/x").1).nonce =
      NonceVal.entry (NonceEntry.mk "n1" 900) :=
  ⟨by decide,
   (c4_protected_nonce_shape 1000 "hdr" "https://ca/x").1 (NonceEntry.mk "n1" 900) []
     (by decide)⟩

/-! ### Challenge polling: `ACME._postChallenge` (src/lib/acme.js:426-543)

`_postChallenge`'s body is `return respondToChallenge()`.  `respondToChallenge`
(line 530) and `deactivate` (line 455) each call `ACME._jwsRequest({ options,
url, protected, payload })` with a SINGLE argument, although `_jwsRequest` is
declared `function (me, bigopts)` (line 880).  At such a call the options
object is bound to the parameter `me` (and `bigopts` is `undefined`), so the
very first step, `ACME._getNonce(me)`, evaluates `me._nonces.shift()` with
`me._nonces` undefined and throws a TypeError synchronously -- before the
accept POST, before any GET of the challenge url, before any deactivation
and before the driver's own `MAX_POLL` rejection.  (The two-argument call
sites `_registerAccount` line 186 and `_getChallenges` line 264 show the
intended signature; the newOrder POST at line 727 and `pollCert` at line 586
share the one-argument slip.)

The embedding below keeps the dispatch structure the source text spells out
-- the shared counter, the `MAX_POLL` ceiling, the processing/pending/valid
branches, `deactivate` -- but gates every `ACME._jwsRequest` call site on
the faithful first step of `_jwsRequest` applied to the object that site
actually passes, so execution is cut off by the TypeError exactly where the
source cuts it off. -/

/-- `resp.body.status` of one poll response. `noStatus` models a body with no
`status` field. -/
inductive ChStatus
  | processing
  | pending
  | valid
  | invalid
  | noStatus
  | other (s : String)
deriving DecidableEq, Repr

/-- The observable protocol actions of `_postChallenge`, in order. -/
inductive ChAction
  | acceptPost (url payload : String)
  | pollGet (url : String)
  | deactivatePost (url payload : String)
  | waitRetry
  | waitDeauth
  | removeChallenge
deriving DecidableEq, Repr

/-- `JSON.stringify({})`, the accept payload of `respondToChallenge`. -/
def acceptPayload : String := "\x7b\x7d"

/-- `JSON.stringify({ "status": "deactivated" })`, the payload of `deactivate`. -/
def deactivatePayload : String := "\x7b\"status\":\"deactivated\"\x7d"

/-- `MAX_POLL = me.retryPoll || 8` and `MAX_PEND = me.retryPending || 4`:
JS `||` replaces any falsy value (absent or 0) by the default. -/
def orDefault : Option Nat → Nat → Nat
  | none, d => d
  | some 0, d => d
  | some (n + 1), _ => n + 1

structure PollCfg where
  maxPoll : Nat
  maxPend : Nat
deriving DecidableEq, Repr

def pollCfgOf (retryPoll retryPending : Option Nat) : PollCfg :=
  { maxPoll := orDefault retryPoll 8, maxPend := orDefault retryPending 4 }

def stuckMsg (altname : String) : String :=
  "[acme-v2] stuck in bad pending/processing state for '" ++ altname ++ "'"

def emptyStateMsg (altname : String) : String :=
  "[acme-v2] (E_STATE_EMPTY) empty challenge state for '" ++ altname ++ "':"

def invalidStateMsg (altname : String) : String :=
  "[acme-v2] (E_STATE_INVALID) challenge state for '" ++ altname ++ "': 'invalid'"

def uknStateMsg (altname s : String) : String :=
  "[acme-v2] (E_STATE_UKN) challenge state for '" ++ altname ++ "': '" ++ s ++ "'"

inductive PollOutcome
  | success
  | stuck (msg : String)
  | stateEmpty (msg : String)
  | stateInvalid (msg : String)
  | stateUnknown (msg : String)
  | fuelOut
deriving DecidableEq, Repr

/-- The outcome of running a piece of JS: a value, or a thrown TypeError. -/
inductive JsOutcome (α : Type)
  | ok (v : α)
  | typeError
deriving DecidableEq, Repr

/-- What `ACME._getNonce(me)` reads from its argument: just `me._nonces`,
which is `undefined` (`none`) on anything but the engine handle built by
`ACME.create` (which sets `me._nonces = []`). -/
structure GetNonceRecv where
  nonces : Option NonceCache
deriving DecidableEq, Repr

/-- `ACME._getNonce(me)` as executed: the loop's first step is
`me._nonces.shift()`; when `_nonces` is `undefined` the method access on
`undefined` throws a TypeError, otherwise the cache loop and HEAD fallback
of `ACME_getNonce` run. -/
def ACME_getNonce_run (recv : GetNonceRecv) (now : Nat) (freshHeader : String) :
    JsOutcome (NonceVal × NonceCache) :=
  match recv.nonces with
  | none => JsOutcome.typeError
  | some cache => JsOutcome.ok (ACME_getNonce now cache freshHeader)

/-- The `{ options, url, protected, payload }` object literal that
`deactivate` (acme.js:455), `respondToChallenge` (530) and `pollCert` (586)
pass as the SOLE argument of `ACME._jwsRequest`: inside the call it is bound
to `me`, and it has no `_nonces` field. -/
def bigoptsAsMe : GetNonceRecv := { nonces := none }

/-- The first step of `ACME._jwsRequest(me, bigopts)`: `ACME._getNonce(me)`.
Signing, POSTing and nonce harvesting all live in the `.then` continuation
of this step and run only if it returns. -/
def ACME_jwsRequest_first (meArg : GetNonceRecv) (now : Nat)
    (freshHeader : String) : JsOutcome (NonceVal × NonceCache) :=
  ACME_getNonce_run meArg now freshHeader

def isPollGet : ChAction → Bool
  | ChAction.pollGet _ => true
  | _ => false

/-- `pollStatus` together with its continuations, as the source executes
them: `i` indexes the server's poll responses, `count` is the shared poll
counter.  The poll GET goes through `me.request` directly (line 478) and
works; the accept POST (`respondToChallenge`) and the deactivation POST
(`deactivate`) each start with the one-argument `ACME._jwsRequest` call, so
each is gated on `ACME_jwsRequest_first bigoptsAsMe`, and after a TypeError
nothing further runs. -/
def pollLoopRun (cfg : PollCfg) (authUrl altname : String)
    (server : Nat → ChStatus) (now : Nat) (freshHeader : String) :
    Nat → Nat → Nat → List ChAction × JsOutcome PollOutcome
  | 0, _, _ => ([], JsOutcome.ok PollOutcome.fuelOut)
  | fuel + 1, i, count =>
    if cfg.maxPoll ≤ count then
      ([], JsOutcome.ok (PollOutcome.stuck (stuckMsg altname)))
    else
      match server i with
      | ChStatus.processing =>
        let r := pollLoopRun cfg authUrl altname server now freshHeader fuel
          (i + 1) (count + 1)
        (ChAction.pollGet authUrl :: ChAction.waitRetry :: r.1, r.2)
      | ChStatus.pending =>
        if cfg.maxPend ≤ count + 1 then
          match ACME_jwsRequest_first bigoptsAsMe now freshHeader with
          | JsOutcome.typeError =>
            ([ChAction.pollGet authUrl, ChAction.waitRetry], JsOutcome.typeError)
          | JsOutcome.ok _ =>
            match ACME_jwsRequest_first bigoptsAsMe now freshHeader with
            | JsOutcome.typeError =>
              ([ChAction.pollGet authUrl, ChAction.waitRetry,
                ChAction.deactivatePost authUrl deactivatePayload,
                ChAction.waitDeauth], JsOutcome.typeError)
            | JsOutcome.ok _ =>
              let r := pollLoopRun cfg authUrl altname server now freshHeader fuel
                (i + 1) (count + 1)
              (ChAction.pollGet authUrl :: ChAction.waitRetry ::
                ChAction.deactivatePost authUrl deactivatePayload ::
                ChAction.waitDeauth ::
                ChAction.acceptPost authUrl acceptPayload ::
                ChAction.waitRetry :: r.1, r.2)
        else
          match ACME_jwsRequest_first bigoptsAsMe now freshHeader with
          | JsOutcome.typeError =>
            ([ChAction.pollGet authUrl, ChAction.waitRetry], JsOutcome.typeError)
          | JsOutcome.ok _ =>
            let r := pollLoopRun cfg authUrl altname server now freshHeader fuel
              (i + 1) (count + 1)
            (ChAction.pollGet authUrl :: ChAction.waitRetry ::
              ChAction.acceptPost authUrl acceptPayload ::
              ChAction.waitRetry :: r.1, r.2)
      | ChStatus.valid =>
        ([ChAction.pollGet authUrl, ChAction.removeChallenge],
         JsOutcome.ok PollOutcome.success)
      | ChStatus.noStatus =>
        ([ChAction.pollGet authUrl],
         JsOutcome.ok (PollOutcome.stateEmpty (emptyStateMsg altname)))
      | ChStatus.invalid =>
        ([ChAction.pollGet authUrl],
         JsOutcome.ok (PollOutcome.stateInvalid (invalidStateMsg altname)))
      | ChStatus.other s =>
        ([ChAction.pollGet authUrl],
         JsOutcome.ok (PollOutcome.stateUnknown (uknStateMsg altname s)))

/-- `ACME._postChallenge(me, options, auth)`: the body is
`return respondToChallenge()`, and `respondToChallenge` immediately runs the
one-argument `ACME._jwsRequest` (acme.js:530); only if that returned would
the accept POST be made, the `RETRY_INTERVAL` wait happen and `pollStatus`
start. -/
def ACME_postChallenge_run (cfg : PollCfg) (authUrl altname : String)
    (server : Nat → ChStatus) (now : Nat) (freshHeader : String) :
    List ChAction × JsOutcome PollOutcome :=
  match ACME_jwsRequest_first bigoptsAsMe now freshHeader with
  | JsOutcome.typeError => ([], JsOutcome.typeError)
  | JsOutcome.ok _ =>
    let r := pollLoopRun cfg authUrl altname server now freshHeader
      (cfg.maxPoll + 1) 0 0
    (ChAction.acceptPost authUrl acceptPayload :: ChAction.waitRetry :: r.1, r.2)

/-! ### Claim theorems C5 and C8 -/

/-- C5 (code bug): the pending/deactivation dispatch the claim describes is
never reached.  `respondToChallenge` calls `ACME._jwsRequest` with one
argument (acme.js:530), so `me._nonces.shift()` runs on `undefined` and
`_postChallenge` throws a TypeError before the accept POST, before any poll
of the challenge url and before any `{"status":"deactivated"}` POST -- for
every configuration, every server behavior and every clock. -/
theorem c5_post_challenge_type_error (cfg : PollCfg) (authUrl altname : String)
    (server : Nat → ChStatus) (now : Nat) (freshHeader : String) :
    ACME_postChallenge_run cfg authUrl altname server now freshHeader =
      ([], JsOutcome.typeError) ∧
    (ACME_postChallenge_run cfg authUrl altname server now freshHeader).1.count
      (ChAction.deactivatePost authUrl deactivatePayload) = 0 ∧
    (ACME_postChallenge_run cfg authUrl altname server now freshHeader).1.count
      (ChAction.acceptPost authUrl acceptPayload) = 0 :=
  ⟨rfl, rfl, rfl⟩

/-- C8 (code bug): the `MAX_POLL` ceiling and its "stuck in bad
pending/processing state" rejection are unreachable: `_postChallenge` throws
a TypeError at its entry (the one-argument `ACME._jwsRequest` call of
`respondToChallenge`, acme.js:530), so zero poll GETs of the challenge url
are ever made and the outcome is the TypeError, never a driver rejection. -/
theorem c8_poll_ceiling_unreachable (cfg : PollCfg) (authUrl altname : String)
    (server : Nat → ChStatus) (now : Nat) (freshHeader : String) :
    (ACME_postChallenge_run cfg authUrl altname server now freshHeader).1.countP
      isPollGet = 0 ∧
    (ACME_postChallenge_run cfg authUrl altname server now freshHeader).2 =
      JsOutcome.typeError :=
  ⟨rfl, rfl⟩

/-! ### Order finalization: `ACME._finalizeOrder` (src/lib/acme.js:578-655)

`_finalizeOrder` computes `csr = me.Keypairs.generateCsrWeb64(options.domainKeypair,
validatedDomains)` once, serializes the payload `{ csr }` once, and then runs
`pollCert`.  `pollCert` too calls `ACME._jwsRequest({ options, url, protected,
payload })` with a SINGLE argument (line 586), so its first step
`ACME._getNonce(me)` throws a TypeError before the `{ csr }` POST is made
and before any order status is seen; the status dispatch written below it in
the source (`valid` records, `processing` re-polls, the rest reject) is dead
code.  The crypto adapter `generateCsrWeb64` is injected, so it appears as
the function parameter `csrFn`; `serialized` stands for
`JSON.stringify(resp.body, null, 2)` of a response body. -/

/-- The pieces of a finalize response body the driver looks at. -/
structure OrderResp where
  status : String
  expires : String
  certificate : String
  serialized : String
deriving DecidableEq, Repr

inductive FinAction
  | finalizePost (url payload : String)
  | waitDefault
deriving DecidableEq, Repr

inductive FinResult
  | ok (expires certificate : String) (order : OrderResp)
  | err (msg : String)
  | outOfScript
deriving DecidableEq, Repr

/-- `options.domains.join(', ')` / `validatedDomains.join(', ')`. -/
def joinComma (l : List String) : String := String.intercalate ", " l

/-- `JSON.stringify({ csr: csr })`; a web-safe base64 CSR contains no character
that JSON string serialization escapes. -/
def csrPayload (csr : String) : String := "\x7b\"csr\":\"" ++ csr ++ "\"\x7d"

/-- The `Requested: ... Validated: ...` block every finalize failure message
ends with, followed by the serialized response body. -/
def reqValBlock (domains validated : List String) (serialized : String) : String :=
  "Requested: '" ++ joinComma domains ++ "'\n" ++
  "Validated: '" ++ joinComma validated ++ "'\n" ++ serialized

def finalizePendingMsg (domains validated : List String) (serialized : String) : String :=
  "Did not finalize order: status 'pending'." ++
  " Best guess: You have not accepted at least one challenge for each domain:\n" ++
  reqValBlock domains validated serialized

def finalizeInvalidMsg (domains validated : List String) (serialized : String) : String :=
  "Did not finalize order: status 'invalid'." ++
  " Best guess: One or more of the domain challenges could not be verified" ++
  " (or the order was canceled).\n" ++
  reqValBlock domains validated serialized

def finalizeReadyMsg (domains validated : List String) (serialized : String) : String :=
  "Did not finalize order: status 'ready'." ++
  " Hmmm... this state shouldn't be possible here. That was the last state." ++
  " This one should at least be 'processing'.\n" ++
  reqValBlock domains validated serialized ++ "\n\n" ++
  "Please open an issue at https://git.coolaj86.com/coolaj86/acme-v2.js"

def finalizeUnknownMsg (status : String) (domains validated : List String)
    (serialized : String) : String :=
  "Didn't finalize order: Unhandled status '" ++ status ++ "'." ++
  " This is not one of the known statuses...\n" ++
  reqValBlock domains validated serialized ++ "\n\n" ++
  "Please open an issue at https://git.coolaj86.com/coolaj86/acme-v2.js"

/-- `pollCert` as the source executes it: first the one-argument
`ACME._jwsRequest` call (acme.js:586); only if it returned would the payload
be POSTed, a response (the next `script` entry) be received and the source's
status dispatch run: `valid` records `expires` and `certificate` and returns
the order; `processing` waits (`ACME._wait()`) and polls again; `pending`,
`invalid`, `ready` and anything else reject. -/
def pollCertRun (finalizeUrl payload : String) (domains validated : List String)
    (now : Nat) (freshHeader : String) :
    List OrderResp → List FinAction × JsOutcome FinResult
  | [] =>
    match ACME_jwsRequest_first bigoptsAsMe now freshHeader with
    | JsOutcome.typeError => ([], JsOutcome.typeError)
    | JsOutcome.ok _ => ([], JsOutcome.ok FinResult.outOfScript)
  | r :: rest =>
    match ACME_jwsRequest_first bigoptsAsMe now freshHeader with
    | JsOutcome.typeError => ([], JsOutcome.typeError)
    | JsOutcome.ok _ =>
        if r.status = "valid" then
          ([FinAction.finalizePost finalizeUrl payload],
           JsOutcome.ok (FinResult.ok r.expires r.certificate r))
        else if r.status = "processing" then
          let k := pollCertRun finalizeUrl payload domains validated now
            freshHeader rest
          (FinAction.finalizePost finalizeUrl payload ::
            FinAction.waitDefault :: k.1, k.2)
        else if r.status = "pending" then
          ([FinAction.finalizePost finalizeUrl payload],
           JsOutcome.ok (FinResult.err
             (finalizePendingMsg domains validated r.serialized)))
        else if r.status = "invalid" then
          ([FinAction.finalizePost finalizeUrl payload],
           JsOutcome.ok (FinResult.err
             (finalizeInvalidMsg domains validated r.serialized)))
        else if r.status = "ready" then
          ([FinAction.finalizePost finalizeUrl payload],
           JsOutcome.ok (FinResult.err
             (finalizeReadyMsg domains validated r.serialized)))
        else
          ([FinAction.finalizePost finalizeUrl payload],
           JsOutcome.ok (FinResult.err
             (finalizeUnknownMsg r.status domains validated r.serialized)))

/-- `ACME._finalizeOrder(me, options, validatedDomains)`. -/
def ACME_finalizeOrder_run (csrFn : String → List String → String)
    (domainKeypair finalizeUrl : String) (domains validated : List String)
    (now : Nat) (freshHeader : String) (script : List OrderResp) :
    List FinAction × JsOutcome FinResult :=
  pollCertRun finalizeUrl (csrPayload (csrFn domainKeypair validated)) domains
    validated now freshHeader script

/-- C6 (code bug): `_finalizeOrder` never POSTs `{ csr }` and never sees an
order status: `pollCert` calls `ACME._jwsRequest({...})` with one argument
(acme.js:586), so `me._nonces.shift()` runs on `undefined` and a TypeError
is thrown before the request is made, whatever the server would have
answered -- the claimed status dispatch is unreachable. -/
theorem c6_finalize_type_error (csrFn : String → List String → String)
    (domainKeypair finalizeUrl : String) (domains validated : List String)
    (now : Nat) (freshHeader : String) (script : List OrderResp) :
    ACME_finalizeOrder_run csrFn domainKeypair finalizeUrl domains validated
        now freshHeader script = ([], JsOutcome.typeError) ∧
    (ACME_finalizeOrder_run csrFn domainKeypair finalizeUrl domains validated
        now freshHeader script).1.count
      (FinAction.finalizePost finalizeUrl
        (csrPayload (csrFn domainKeypair validated))) = 0 := by
  cases script with
  | nil => exact ⟨rfl, rfl⟩
  | cons r rest => exact ⟨rfl, rfl⟩

/-! ### Base64 and SHA adapter: `Enc.bufToBase64`, `Enc.bufToUrlBase64`,
`Crypto._sha` (src/lib/acme.js:978-997)

`Enc.bufToBase64` turns the byte buffer into a binary string and applies the
platform `btoa`, i.e. standard base64 with `=` padding; `base64Chars` below
is that encoding written out.  `Crypto._sha` delegates the digest itself to
`window.crypto.subtle.digest` (external), so the digest appears as the
function parameter `shaBytes`, and wraps it in `Enc.bufToUrlBase64`. -/

def b64Alphabet : String :=
  "ABCDEFGHIJKLMNOPQRSTUVWXYZabcdefghijklmnopqrstuvwxyz0123456789+/"

def b64Char (n : Nat) : Char := b64Alphabet.data.getD n 'A'

/-- Standard base64 of a byte list (the behavior of `btoa` on the binary
string `Enc.bufToBase64` builds from the bytes). -/
def base64Chars : List Nat → List Char
  | [] => []
  | [a] => [b64Char (a / 4), b64Char (a % 4 * 16), '=', '=']
  | [a, b] => [b64Char (a / 4), b64Char (a % 4 * 16 + b / 16), b64Char (b % 16 * 4), '=']
  | a :: b :: c :: rest =>
    b64Char (a / 4) :: b64Char (a % 4 * 16 + b / 16) ::
      b64Char (b % 16 * 4 + c / 64) :: b64Char (c % 64) :: base64Chars rest

def Enc_bufToBase64 (u8 : List Nat) : String := String.mk (base64Chars u8)

/-- `.replace(/\+/g, '-').replace(/\//g, '_')` on one character. -/
def urlSafeB64Char (c : Char) : Char :=
  if c = '+' then '-' else if c = '/' then '_' else c

/-- `Enc.bufToUrlBase64`: base64, then `+` to `-`, `/` to `_`, strip `=`. -/
def Enc_bufToUrlBase64 (u8 : List Nat) : String :=
  String.mk (((base64Chars u8).map urlSafeB64Char).filter (fun c => c != '='))

/-- `Crypto._sha('sha256', str)`: digest the string (delegated, `shaBytes`)
and return the web-safe base64 of the digest bytes. -/
def Crypto_sha (shaBytes : String → List Nat) (s : String) : String :=
  Enc_bufToUrlBase64 (shaBytes s)

/-! ### Auth derivation: `ACME._challengeToAuth` (src/lib/acme.js:378-423) -/

/-- JS `name.replace('*.', '')`: remove the FIRST occurrence of `*.`. -/
def removeStarDot : List Char → List Char
  | '*' :: '.' :: cs => cs
  | c :: cs => c :: removeStarDot cs
  | [] => []

def jsReplaceStarDot (s : String) : String := String.mk (removeStarDot s.data)

/-- `ACME._untame(name, wild)`: restore the leading `*.` on wildcards. -/
def ACME_untame (name : String) (wild : Bool) : String :=
  if wild then "*." ++ jsReplaceStarDot name else name

/-- `ACME.challengePrefixes['dns-01']` after the dry-run rewrite:
`'_acme-challenge'.replace('acme-challenge', 'greenlock-dryrun-' + ACME._prnd(4))`.
`rnd` stands for the pseudorandom hex string `ACME._prnd(4)`. -/
def dnsChPre (dryrun : Bool) (rnd : String) : String :=
  if dryrun then "_greenlock-dryrun-" ++ rnd else "_acme-challenge"

structure Identifier where
  idType : String
  value : String
deriving DecidableEq, Repr

/-- The `{ type, status, url, token }` of the chosen challenge. -/
structure ChallengeObj where
  chType : String
  status : String
  url : String
  token : String
deriving DecidableEq, Repr

/-- The authorization object (`request`) `_challengeToAuth` copies from. -/
structure AuthzReq where
  identifier : Identifier
  status : String
  expires : String
  wildcard : Bool
deriving DecidableEq, Repr

/-- The derived Auth value: the authorization's fields, the challenge's fields
(the challenge's `status` overwrites the authorization's), and the
batteries-included helpers. -/
structure Auth where
  identifier : Identifier
  status : String
  expires : String
  wildcard : Bool
  chType : String
  url : String
  token : String
  hostname : String
  altname : String
  thumbprint : String
  keyAuthorization : String
  challengeUrl : String
  dnsHost : String
  dnsAuthorization : String
deriving DecidableEq, Repr

/-- `ACME._challengeToAuth(me, options, request, challenge, dryrun)`.  The JWK
thumbprint of the account public key is delegated to `me.Keypairs.thumbprint`
(external), so it appears as `thumbprintFn`. -/
def ACME_challengeToAuth {Jwk : Type} (thumbprintFn : Jwk → String)
    (shaBytes : String → List Nat) (accountPubJwk : Jwk) (rnd : String)
    (req : AuthzReq) (ch : ChallengeObj) (dryrun : Bool) : Auth :=
  let thumb := thumbprintFn accountPubJwk
  let keyAuth := ch.token ++ "." ++ thumb
  { identifier := req.identifier
  , status := ch.status
  , expires := req.expires
  , wildcard := req.wildcard
  , chType := ch.chType
  , url := ch.url
  , token := ch.token
  , hostname := req.identifier.value
  , altname := ACME_untame req.identifier.value req.wildcard
  , thumbprint := thumb
  , keyAuthorization := keyAuth
  , challengeUrl :=
      "http://" ++ req.identifier.value ++ "/.well-known/acme-challenge/" ++ ch.token
  , dnsHost := dnsChPre dryrun rnd ++ "." ++ jsReplaceStarDot req.identifier.value
  , dnsAuthorization := Crypto_sha shaBytes keyAuth }

/-- C7: for every authorization/challenge pair, the derived Auth satisfies
`keyAuthorization = token ++ "." ++ thumbprint` where `thumbprint` is the
(delegated) base64url SHA-256 JWK thumbprint of the account public key, and
`dnsAuthorization = base64url(SHA-256(keyAuthorization))` where `base64url`
is the source's `Enc.bufToUrlBase64` over the digest bytes. -/
theorem c7_key_auth_law {Jwk : Type} (thumbprintFn : Jwk → String)
    (shaBytes : String → List Nat) (accountPubJwk : Jwk) (rnd : String)
    (req : AuthzReq) (ch : ChallengeObj) (dryrun : Bool) :
    (ACME_challengeToAuth thumbprintFn shaBytes accountPubJwk rnd req ch
        dryrun).thumbprint = thumbprintFn accountPubJwk
    ∧ (ACME_challengeToAuth thumbprintFn shaBytes accountPubJwk rnd req ch
        dryrun).keyAuthorization =
      ch.token ++ "." ++ thumbprintFn accountPubJwk
    ∧ (ACME_challengeToAuth thumbprintFn shaBytes accountPubJwk rnd req ch
        dryrun).dnsAuthorization =
      Enc_bufToUrlBase64 (shaBytes
        ((ACME_challengeToAuth thumbprintFn shaBytes accountPubJwk rnd req ch
          dryrun).keyAuthorization)) :=
  ⟨rfl, rfl, rfl⟩

/-! ### ToS agreement: `agree` in `ACME._registerAccount` (src/lib/acme.js:121-238) -/

structure RegOptions where
  contact : Option (List String)
  email : Option String
deriving DecidableEq, Repr

/-- The newAccount request body `_registerAccount` assembles once the ToS
check passed. -/
structure AccountPayload where
  termsOfServiceAgreed : Bool
  onlyReturnExisting : Bool
  contact : Option (List String)
deriving DecidableEq, Repr

inductive AgreeOutcome
  | err (code msg : String)
  | ok (payload : AccountPayload)
deriving DecidableEq, Repr

/-- `options.contact.slice(0)`, or `['mailto:' + options.email]`, or absent. -/
def contactOf (opts : RegOptions) : Option (List String) :=
  match opts.contact with
  | some c => some c
  | none =>
    match opts.email with
    | some e => some ["mailto:" ++ e]
    | none => none

/-- The `agree(tosUrl)` continuation of `_registerAccount`: `tos` is the
stored `me._tos` from the directory, `tosUrl` what the `agreeToTerms`
callback yielded.  `if (me._tos !== tosUrl)` rejects with `E_AGREE_TOS`;
otherwise the payload is assembled with
`termsOfServiceAgreed: tosUrl === me._tos`. -/
def registerAgree (tos tosUrl : String) (opts : RegOptions) : AgreeOutcome :=
  if tos ≠ tosUrl then
    AgreeOutcome.err "E_AGREE_TOS" ("You must agree to the ToS at '" ++ tos ++ "'")
  else
    AgreeOutcome.ok
      { termsOfServiceAgreed := tosUrl == tos
      , onlyReturnExisting := false
      , contact := contactOf opts }

/-- C10: registration fails with code `E_AGREE_TOS` exactly when the
`agreeToTerms` callback yields a ToS url not strictly equal to the stored
`termsOfService` url; when they are equal, the newAccount payload carries
`termsOfServiceAgreed: true`. -/
theorem c10_agree_tos (tos tosUrl : String) (opts : RegOptions) :
    ((∃ m, registerAgree tos tosUrl opts = AgreeOutcome.err "E_AGREE_TOS" m) ↔
      tosUrl ≠ tos)
    ∧ (tosUrl = tos →
      ∃ p, registerAgree tos tosUrl opts = AgreeOutcome.ok p ∧
        p.termsOfServiceAgreed = true) := by
  constructor
  · constructor
    · rintro ⟨m, hm⟩ heq
      subst heq
      simp [registerAgree] at hm
    · intro hne
      have hne' : tos ≠ tosUrl := fun h => hne h.symm
      exact ⟨"You must agree to the ToS at '" ++ tos ++ "'",
        by simp [registerAgree, hne']⟩
  · intro heq
    subst heq
    refine ⟨AccountPayload.mk (tosUrl == tosUrl) false (contactOf opts), ?_, ?_⟩
    · simp [registerAgree]
    · simp

theorem c10_agree_tos_witness :
    (("https://ca/other" : String) ≠ "https://ca/tos") ∧
    (∃ m, registerAgree "https://ca/tos" "https://ca/other" (RegOptions.mk none none) =
      AgreeOutcome.err "E_AGREE_TOS" m) ∧
    (("https://ca/tos" : String) = "https://ca/tos") ∧
    (∃ p, registerAgree "https://ca/tos" "https://ca/tos"
        (RegOptions.mk none (some "admin@example.com")) = AgreeOutcome.ok p ∧
      p.termsOfServiceAgreed = true) :=
  ⟨by decide,
   (c10_agree_tos "https://ca/tos" "https://ca/other" (RegOptions.mk none none)).1.mpr
     (by decide),
   rfl,
   (c10_agree_tos "https://ca/tos" "https://ca/tos"
     (RegOptions.mk none (some "admin@example.com"))).2 rfl⟩

/-! ### PEM chain utilities: `ACME.formatPemChain`, `ACME.splitPemChain`
(src/lib/acme.js:14-21)

`formatPemChain(str)`: trim, then globally replace every `[\r\n]+` run by a
single newline, then globally replace dash-newline-dash by
dash-newline-newline-dash, then append a newline.
`splitPemChain(str)`: trim, split on every `[\r\n]{2,}` run, append a newline
to each piece.

Strings are modelled character by character as `List Char`.  `jsTrim` models
`String.prototype.trim` on the characters that occur here (ASCII whitespace);
`collapseNlAux` models the global replace of `[\r\n]+` runs by a single
`'\n'`; `insertBlank` models the global, non-overlapping, left-to-right
replace of `-\n-` by `-\n\n-` (scanning resumes after a match, as JS does);
`splitGo` models the greedy split on maximal runs of two or more line break
characters (a separator at the end of the string yields a final empty
piece, as JS `split` does). -/

def isNlChar (c : Char) : Bool := c = '\n' || c = '\r'

def isWsChar (c : Char) : Bool :=
  c = ' ' || c = '\t' || c = '\n' || c = '\r' || c = '\x0b' || c = '\x0c'

def jsTrim (s : List Char) : List Char :=
  ((s.dropWhile isWsChar).reverse.dropWhile isWsChar).reverse

/-- Replace every maximal run of `[\r\n]` by one `'\n'`; the flag records
whether the previous character was part of such a run. -/
def collapseNlAux : Bool → List Char → List Char
  | _, [] => []
  | prevNl, c :: cs =>
    if isNlChar c then
      if prevNl then collapseNlAux true cs else '\n' :: collapseNlAux true cs
    else c :: collapseNlAux false cs

def collapseNl (s : List Char) : List Char := collapseNlAux false s

/-- Global replace of `-\n-` by `-\n\n-`, non-overlapping, left to right. -/
def insertBlank : List Char → List Char
  | [] => []
  | [c] => [c]
  | [c, d] => [c, d]
  | c :: d :: e :: cs =>
    if c = '-' ∧ d = '\n' ∧ e = '-' then
      '-' :: '\n' :: '\n' :: '-' :: insertBlank cs
    else c :: insertBlank (d :: e :: cs)

def ACME_formatPemChain (s : List Char) : List Char :=
  insertBlank (collapseNl (jsTrim s)) ++ ['\n']

/-- `split(/[\r\n]{2,}/g)`: `false` mode is scanning a piece (accumulated
reversed in `cur`), `true` mode is skipping the rest of a separator run. -/
def splitGo : Bool → List Char → List Char → List (List Char)
  | true, _, [] => [[]]
  | true, cur, c :: cs =>
    if isNlChar c then splitGo true cur cs else splitGo false [c] cs
  | false, cur, [] => [cur.reverse]
  | false, cur, [c] => [(c :: cur).reverse]
  | false, cur, c :: d :: cs =>
    if isNlChar c && isNlChar d then cur.reverse :: splitGo true [] cs
    else splitGo false (c :: cur) (d :: cs)

def ACME_splitPemChain (s : List Char) : List (List Char) :=
  (splitGo false [] (jsTrim s)).map (fun b => b ++ ['\n'])

/-- No two adjacent line break characters. -/
def noNlPair : List Char → Bool
  | c :: d :: cs => !(isNlChar c && isNlChar d) && noNlPair (d :: cs)
  | _ => true

/-- No occurrence of the substring `-\n-`. -/
def noDashNlDash : List Char → Bool
  | c :: d :: e :: cs => !(c == '-' && d == '\n' && e == '-') && noDashNlDash (d :: e :: cs)
  | _ => true

/-- A well-formed PEM block body (without its trailing newline): at least two
characters, first and last character `'-'` (the `-----BEGIN/END ...-----`
delimiters), no carriage returns, no blank line inside, and no line that ends
with `-` directly followed by a line that starts with `-` (distinct PEM
delimiter lines never abut inside one block). -/
def PemBlockOk (c : List Char) : Prop :=
  2 ≤ c.length ∧ c.head? = some '-' ∧ c.getLast? = some '-' ∧
    '\r' ∉ c ∧ noNlPair c = true ∧ noDashNlDash c = true

instance (c : List Char) : Decidable (PemBlockOk c) := by
  unfold PemBlockOk; infer_instance

/-- Blocks joined by one `'\n'` each: what `trim` leaves of the concatenated
input. -/
def nlJoinTail : List (List Char) → List Char
  | [] => []
  | c :: rest => '\n' :: (c ++ nlJoinTail rest)

def nlJoin : List (List Char) → List Char
  | [] => []
  | c :: rest => c ++ nlJoinTail rest

/-- Blocks joined by `'\n'`, `'\n'`: what the blank-line insertion produces. -/
def nl2JoinTail : List (List Char) → List Char
  | [] => []
  | c :: rest => '\n' :: '\n' :: (c ++ nl2JoinTail rest)

def nl2Join : List (List Char) → List Char
  | [] => []
  | c :: rest => c ++ nl2JoinTail rest

/-- The concatenation of the blocks, each with its trailing newline: the
input of the round trip. -/
def concatBlocks (cs : List (List Char)) : List Char :=
  (cs.map (fun b => b ++ ['\n'])).flatten

theorem concatBlocks_eq (cs : List (List Char)) (h : cs ≠ []) :
    concatBlocks cs = nlJoin cs ++ ['\n'] := by
  induction cs with
  | nil => exact absurd rfl h
  | cons c rest ih =>
    cases rest with
    | nil => simp [concatBlocks, nlJoin, nlJoinTail]
    | cons r rs =>
      have := ih (by simp)
      simp only [concatBlocks, List.map_cons, List.flatten_cons] at this ⊢
      rw [this]
      simp [nlJoin, nlJoinTail, List.append_assoc]

theorem nlJoin_cons_cons (c r : List Char) (rs : List (List Char)) :
    nlJoin (c :: r :: rs) = c ++ '\n' :: nlJoin (r :: rs) := rfl

theorem nl2Join_cons_cons (c r : List Char) (rs : List (List Char)) :
    nl2Join (c :: r :: rs) = c ++ '\n' :: '\n' :: nl2Join (r :: rs) := rfl

theorem pemBlockOk_ne_nil {c : List Char} (h : PemBlockOk c) : c ≠ [] := by
  intro hnil
  rw [hnil] at h
  simp [PemBlockOk] at h

theorem nlJoin_ne_nil {cs : List (List Char)} (hne : cs ≠ [])
    (h : ∀ c ∈ cs, PemBlockOk c) : nlJoin cs ≠ [] := by
  cases cs with
  | nil => exact absurd rfl hne
  | cons c rest =>
    have := pemBlockOk_ne_nil (h c (by simp))
    simp [nlJoin, List.append_eq_nil, this]

theorem nl2Join_ne_nil {cs : List (List Char)} (hne : cs ≠ [])
    (h : ∀ c ∈ cs, PemBlockOk c) : nl2Join cs ≠ [] := by
  cases cs with
  | nil => exact absurd rfl hne
  | cons c rest =>
    have := pemBlockOk_ne_nil (h c (by simp))
    simp [nl2Join, List.append_eq_nil, this]

theorem nlJoin_head {cs : List (List Char)} (hne : cs ≠ [])
    (h : ∀ c ∈ cs, PemBlockOk c) : (nlJoin cs).head? = some '-' := by
  cases cs with
  | nil => exact absurd rfl hne
  | cons c rest =>
    have hc := h c (by simp)
    show (c ++ nlJoinTail rest).head? = some '-'
    rw [List.head?_append_of_ne_nil _ (pemBlockOk_ne_nil hc)]
    exact hc.2.1

theorem nl2Join_head {cs : List (List Char)} (hne : cs ≠ [])
    (h : ∀ c ∈ cs, PemBlockOk c) : (nl2Join cs).head? = some '-' := by
  cases cs with
  | nil => exact absurd rfl hne
  | cons c rest =>
    have hc := h c (by simp)
    show (c ++ nl2JoinTail rest).head? = some '-'
    rw [List.head?_append_of_ne_nil _ (pemBlockOk_ne_nil hc)]
    exact hc.2.1

theorem nlJoin_getLast {cs : List (List Char)} (hne : cs ≠ [])
    (h : ∀ c ∈ cs, PemBlockOk c) : (nlJoin cs).getLast? = some '-' := by
  induction cs with
  | nil => exact absurd rfl hne
  | cons c rest ih =>
    cases rest with
    | nil => simpa [nlJoin, nlJoinTail] using (h c (by simp)).2.2.1
    | cons r rs =>
      rw [nlJoin_cons_cons]
      rw [List.getLast?_append_of_ne_nil _ (by simp)]
      have hjoin : nlJoin (r :: rs) ≠ [] :=
        nlJoin_ne_nil (by simp) (fun x hx => h x (List.mem_cons_of_mem _ hx))
      have : ('\n' :: nlJoin (r :: rs)).getLast? = (nlJoin (r :: rs)).getLast? := by
        rw [show '\n' :: nlJoin (r :: rs) = ['\n'] ++ nlJoin (r :: rs) from rfl]
        exact List.getLast?_append_of_ne_nil _ hjoin
      rw [this]
      exact ih (by simp) (fun x hx => h x (List.mem_cons_of_mem _ hx))

theorem nl2Join_getLast {cs : List (List Char)} (hne : cs ≠ [])
    (h : ∀ c ∈ cs, PemBlockOk c) : (nl2Join cs).getLast? = some '-' := by
  induction cs with
  | nil => exact absurd rfl hne
  | cons c rest ih =>
    cases rest with
    | nil => simpa [nl2Join, nl2JoinTail] using (h c (by simp)).2.2.1
    | cons r rs =>
      rw [nl2Join_cons_cons]
      rw [List.getLast?_append_of_ne_nil _ (by simp)]
      have hjoin : nl2Join (r :: rs) ≠ [] :=
        nl2Join_ne_nil (by simp) (fun x hx => h x (List.mem_cons_of_mem _ hx))
      have : ('\n' :: '\n' :: nl2Join (r :: rs)).getLast? =
          (nl2Join (r :: rs)).getLast? := by
        rw [show '\n' :: '\n' :: nl2Join (r :: rs) =
          ['\n', '\n'] ++ nl2Join (r :: rs) from rfl]
        exact List.getLast?_append_of_ne_nil _ hjoin
      rw [this]
      exact ih (by simp) (fun x hx => h x (List.mem_cons_of_mem _ hx))

theorem noNlPair_tail {x : Char} {l : List Char} (h : noNlPair (x :: l) = true) :
    noNlPair l = true := by
  cases l with
  | nil => rfl
  | cons y ys =>
    simp only [noNlPair, Bool.and_eq_true] at h
    exact h.2

theorem noNlPair_cons {y : Char} {l : List Char} (hl : noNlPair l = true)
    (hy : ∀ z, l.head? = some z → (isNlChar y && isNlChar z) = false) :
    noNlPair (y :: l) = true := by
  cases l with
  | nil => rfl
  | cons z zs =>
    simp only [noNlPair, Bool.and_eq_true]
    exact ⟨by simp [hy z rfl], hl⟩

theorem noNlPair_append {a b : List Char} (ha : noNlPair a = true)
    (hb : noNlPair b = true)
    (hj : ∀ x y, a.getLast? = some x → b.head? = some y →
      (isNlChar x && isNlChar y) = false) :
    noNlPair (a ++ b) = true := by
  induction a with
  | nil => simpa using hb
  | cons x t ih =>
    cases t with
    | nil =>
      show noNlPair (x :: b) = true
      exact noNlPair_cons hb (fun z hz => hj x z rfl hz)
    | cons y ts =>
      show noNlPair (x :: ((y :: ts) ++ b)) = true
      have hxy : (isNlChar x && isNlChar y) = false := by
        cases hb : (isNlChar x && isNlChar y) with
        | false => rfl
        | true =>
          simp only [noNlPair, hb, Bool.not_true, Bool.false_and,
            Bool.false_eq_true] at ha
      refine noNlPair_cons ?_ ?_
      · exact ih (noNlPair_tail ha)
          (fun u v hu hv => hj u v (by rw [List.getLast?_cons_cons]; exact hu) hv)
      · intro z hz
        rw [List.head?_append_of_ne_nil _ (by simp)] at hz
        simp only [List.head?_cons, Option.some.injEq] at hz
        subst hz
        exact hxy

theorem noR_mem_nlJoin {cs : List (List Char)} (h : ∀ c ∈ cs, PemBlockOk c) :
    '\r' ∉ nlJoin cs := by
  induction cs with
  | nil => simp [nlJoin]
  | cons c rest ih =>
    cases rest with
    | nil =>
      simpa [nlJoin, nlJoinTail] using (h c (by simp)).2.2.2.1
    | cons r rs =>
      rw [nlJoin_cons_cons]
      intro hmem
      rcases List.mem_append.mp hmem with hmem | hmem
      · exact (h c (by simp)).2.2.2.1 hmem
      · rcases List.mem_cons.mp hmem with hmem | hmem
        · exact absurd hmem (by decide)
        · exact ih (fun x hx => h x (List.mem_cons_of_mem _ hx)) hmem

theorem noNlPair_nlJoin {cs : List (List Char)} (h : ∀ c ∈ cs, PemBlockOk c) :
    noNlPair (nlJoin cs) = true := by
  induction cs with
  | nil => rfl
  | cons c rest ih =>
    cases rest with
    | nil => simpa [nlJoin, nlJoinTail] using (h c (by simp)).2.2.2.2.1
    | cons r rs =>
      rw [nlJoin_cons_cons]
      have hrest : ∀ x ∈ r :: rs, PemBlockOk x :=
        fun x hx => h x (List.mem_cons_of_mem _ hx)
      refine noNlPair_append (h c (by simp)).2.2.2.2.1 ?_ ?_
      · refine noNlPair_cons (ih hrest) ?_
        intro z hz
        rw [nlJoin_head (by simp) hrest] at hz
        simp only [Option.some.injEq] at hz
        subst hz
        decide
      · intro x y hx hy
        rw [(h c (by simp)).2.2.1] at hx
        simp only [Option.some.injEq, List.head?_cons] at hx hy
        subst hx
        subst hy
        decide

theorem dropWhile_eq_self_of_head {p : Char → Bool} {l : List Char}
    (h : ∀ x, l.head? = some x → p x = false) : l.dropWhile p = l := by
  cases l with
  | nil => rfl
  | cons a t => simp [List.dropWhile_cons, h a rfl]

theorem collapseNlAux_id (l : List Char) (hr : '\r' ∉ l)
    (hp : noNlPair l = true) :
    collapseNlAux false l = l ∧
      (l.head? ≠ some '\n' → collapseNlAux true l = l) := by
  induction l with
  | nil => exact ⟨rfl, fun _ => rfl⟩
  | cons c cs ih =>
    have hrcs : '\r' ∉ cs := fun hm => hr (List.mem_cons_of_mem _ hm)
    have hrc : c ≠ '\r' := fun hc => hr (by simp [hc])
    obtain ⟨ih1, ih2⟩ := ih hrcs (noNlPair_tail hp)
    by_cases hc : c = '\n'
    · subst hc
      have hhead : cs.head? ≠ some '\n' := by
        cases cs with
        | nil => simp
        | cons z zs =>
          intro hz
          simp only [List.head?_cons, Option.some.injEq] at hz
          subst hz
          simp [noNlPair, isNlChar] at hp
      constructor
      · show collapseNlAux false ('\n' :: cs) = '\n' :: cs
        simp only [collapseNlAux, isNlChar]
        rw [if_pos (by decide), if_neg (by decide)]
        rw [ih2 hhead]
      · intro habs
        exact absurd rfl habs
    · have hnl : isNlChar c = false := by simp [isNlChar, hc, hrc]
      constructor
      · simp only [collapseNlAux, hnl, Bool.false_eq_true, if_false]
        rw [ih1]
      · intro _
        simp only [collapseNlAux, hnl, Bool.false_eq_true, if_false]
        rw [ih1]

theorem jsTrim_sandwich (l : List Char) (hd g : Char)
    (hh : l.head? = some hd) (hwh : isWsChar hd = false)
    (hg : l.getLast? = some g) (hwg : isWsChar g = false) :
    jsTrim (l ++ ['\n']) = l := by
  unfold jsTrim
  have hlne : l ≠ [] := by
    intro hnil
    rw [hnil] at hh
    simp at hh
  have h1 : (l ++ ['\n']).dropWhile isWsChar = l ++ ['\n'] := by
    refine dropWhile_eq_self_of_head ?_
    intro x hx
    rw [List.head?_append_of_ne_nil _ hlne, hh] at hx
    simp only [Option.some.injEq] at hx
    subst hx
    exact hwh
  rw [h1]
  have h2 : (l ++ ['\n']).reverse = '\n' :: l.reverse := by simp
  rw [h2]
  have h3 : ('\n' :: l.reverse).dropWhile isWsChar = l.reverse.dropWhile isWsChar := by
    simp [List.dropWhile_cons, isWsChar]
  rw [h3]
  have h4 : l.reverse.dropWhile isWsChar = l.reverse := by
    refine dropWhile_eq_self_of_head ?_
    intro x hx
    rw [List.head?_reverse, hg] at hx
    simp only [Option.some.injEq] at hx
    subst hx
    exact hwg
  rw [h4, List.reverse_reverse]

theorem noNlPair_head {x y : Char} {l : List Char}
    (h : noNlPair (x :: y :: l) = true) : (isNlChar x && isNlChar y) = false := by
  cases hb : (isNlChar x && isNlChar y) with
  | false => rfl
  | true =>
    simp only [noNlPair, hb, Bool.not_true, Bool.false_and,
      Bool.false_eq_true] at h

theorem noDashNlDash_tail {x : Char} {l : List Char}
    (h : noDashNlDash (x :: l) = true) : noDashNlDash l = true := by
  cases l with
  | nil => rfl
  | cons y ys =>
    cases ys with
    | nil => rfl
    | cons z zs =>
      simp only [noDashNlDash, Bool.and_eq_true] at h
      exact h.2

theorem getLast?_of_cons_ne_nil {a u : Char} {l : List Char} (hne : l ≠ [])
    (h : (a :: l).getLast? = some u) : l.getLast? = some u := by
  cases l with
  | nil => exact absurd rfl hne
  | cons b bs =>
    rw [List.getLast?_cons_cons] at h
    exact h

theorem insertBlank_id (l : List Char) (h : noDashNlDash l = true) :
    insertBlank l = l := by
  induction l with
  | nil => rfl
  | cons x t ih =>
    cases t with
    | nil => rfl
    | cons y ts =>
      cases ts with
      | nil => rfl
      | cons z zs =>
        have hcond : ¬(x = '-' ∧ y = '\n' ∧ z = '-') := by
          rintro ⟨h1, h2, h3⟩
          subst h1; subst h2; subst h3
          simp [noDashNlDash] at h
        simp only [insertBlank, if_neg hcond]
        rw [ih (noDashNlDash_tail h)]

/-- Scanning a block that holds no `-\n-` and ends in `-`, the first match of
the global replace is exactly at the junction that follows the block. -/
theorem insertBlank_junction :
    ∀ (t : List Char), noDashNlDash t = true → t.getLast? = some '-' →
      ∀ z, insertBlank (t ++ '\n' :: '-' :: z) =
        t ++ '\n' :: '\n' :: '-' :: insertBlank z := by
  intro t
  induction t with
  | nil =>
    intro _ hl z
    simp at hl
  | cons x t ih =>
    intro hm hl z
    cases t with
    | nil =>
      have hx : x = '-' := by simpa using hl
      subst hx
      show insertBlank ('-' :: '\n' :: '-' :: z) =
        '-' :: '\n' :: '\n' :: '-' :: insertBlank z
      simp [insertBlank]
    | cons y t2 =>
      have hm' := noDashNlDash_tail hm
      have hl' : (y :: t2).getLast? = some '-' := by
        rw [List.getLast?_cons_cons] at hl
        exact hl
      cases t2 with
      | nil =>
        have hcond : ¬(x = '-' ∧ y = '\n' ∧ ('\n' : Char) = '-') := by
          rintro ⟨-, -, h3⟩
          exact absurd h3 (by decide)
        show insertBlank (x :: y :: '\n' :: '-' :: z) =
          x :: y :: '\n' :: '\n' :: '-' :: insertBlank z
        have hrec := ih hm' hl' z
        simp only [List.cons_append, List.nil_append] at hrec
        rw [insertBlank, if_neg hcond, hrec]
      | cons w t3 =>
        have hcond : ¬(x = '-' ∧ y = '\n' ∧ w = '-') := by
          rintro ⟨h1, h2, h3⟩
          subst h1; subst h2; subst h3
          simp [noDashNlDash] at hm
        show insertBlank (x :: y :: w :: (t3 ++ '\n' :: '-' :: z)) =
          x :: ((y :: w :: t3) ++ '\n' :: '\n' :: '-' :: insertBlank z)
        have hrec := ih hm' hl' z
        simp only [List.cons_append] at hrec ⊢
        rw [insertBlank, if_neg hcond, hrec]

/-- The fields a well-formed block decomposes into: a leading `-` and a
nonempty tail that still ends in `-`. -/
theorem pemBlockOk_shape {c : List Char} (h : PemBlockOk c) :
    ∃ c₁, c = '-' :: c₁ ∧ c₁ ≠ [] ∧ c₁.getLast? = some '-' ∧
      noNlPair c₁ = true ∧ noDashNlDash c₁ = true := by
  cases c with
  | nil => exact absurd rfl (pemBlockOk_ne_nil h)
  | cons a t =>
    have ha : a = '-' := by
      have := h.2.1
      simpa using this
    subst ha
    have htne : t ≠ [] := by
      intro hnil
      subst hnil
      simpa using h.1
    have hlast : t.getLast? = some '-' := getLast?_of_cons_ne_nil htne h.2.2.1
    exact ⟨t, rfl, htne, hlast, noNlPair_tail h.2.2.2.2.1,
      noDashNlDash_tail h.2.2.2.2.2⟩

theorem insertBlank_nlJoinTail :
    ∀ (cs : List (List Char)) (t : List Char),
      noDashNlDash t = true → t.getLast? = some '-' →
      (∀ c ∈ cs, PemBlockOk c) →
      insertBlank (t ++ nlJoinTail cs) = t ++ nl2JoinTail cs := by
  intro cs
  induction cs with
  | nil =>
    intro t hm _ _
    show insertBlank (t ++ []) = t ++ []
    rw [List.append_nil]
    exact insertBlank_id t hm
  | cons c rest ih =>
    intro t hm hl hok
    obtain ⟨c₁, rfl, hc1ne, hc1last, -, hc1nd⟩ := pemBlockOk_shape (hok c (by simp))
    show insertBlank (t ++ '\n' :: (('-' :: c₁) ++ nlJoinTail rest)) =
      t ++ '\n' :: '\n' :: (('-' :: c₁) ++ nl2JoinTail rest)
    simp only [List.cons_append]
    rw [insertBlank_junction t hm hl (c₁ ++ nlJoinTail rest)]
    rw [ih c₁ hc1nd hc1last (fun x hx => hok x (List.mem_cons_of_mem _ hx))]

theorem splitGo_no_sep :
    ∀ (c : List Char) (cur : List Char), noNlPair c = true →
      splitGo false cur c = [cur.reverse ++ c] := by
  intro c
  induction c with
  | nil =>
    intro cur _
    simp [splitGo]
  | cons x t ih =>
    intro cur hp
    cases t with
    | nil => simp [splitGo]
    | cons y ts =>
      have hxy := noNlPair_head hp
      show splitGo false cur (x :: y :: ts) = [cur.reverse ++ x :: y :: ts]
      rw [splitGo, if_neg (by simp [hxy])]
      rw [ih (x :: cur) (noNlPair_tail hp)]
      simp

theorem splitGo_sep :
    ∀ (c : List Char) (cur z : List Char), noNlPair c = true →
      (∀ x, c.getLast? = some x → isNlChar x = false) →
      splitGo false cur (c ++ '\n' :: '\n' :: z) =
        (cur.reverse ++ c) :: splitGo true [] z := by
  intro c
  induction c with
  | nil =>
    intro cur z _ _
    show splitGo false cur ('\n' :: '\n' :: z) = (cur.reverse ++ []) :: splitGo true [] z
    rw [splitGo, if_pos (by decide)]
    simp
  | cons x t ih =>
    intro cur z hp hlast
    cases t with
    | nil =>
      have hx : isNlChar x = false := hlast x (by simp)
      show splitGo false cur (x :: '\n' :: '\n' :: z) =
        (cur.reverse ++ [x]) :: splitGo true [] z
      rw [splitGo, if_neg (by simp [hx])]
      rw [splitGo, if_pos (by decide)]
      simp
    | cons y ts =>
      have hxy := noNlPair_head hp
      show splitGo false cur (x :: ((y :: ts) ++ '\n' :: '\n' :: z)) = _
      simp only [List.cons_append]
      rw [splitGo, if_neg (by simp [hxy])]
      have hrec := ih (x :: cur) z (noNlPair_tail hp)
        (fun u hu => hlast u (by rw [List.getLast?_cons_cons]; exact hu))
      simp only [List.cons_append] at hrec
      rw [hrec]
      simp

theorem splitGo_nl2JoinTail :
    ∀ (cs : List (List Char)) (t : List Char) (cur : List Char),
      noNlPair t = true →
      (∀ x, t.getLast? = some x → isNlChar x = false) →
      (∀ c ∈ cs, PemBlockOk c) →
      splitGo false cur (t ++ nl2JoinTail cs) = (cur.reverse ++ t) :: cs := by
  intro cs
  induction cs with
  | nil =>
    intro t cur hp _ _
    show splitGo false cur (t ++ []) = (cur.reverse ++ t) :: []
    rw [List.append_nil]
    exact splitGo_no_sep t cur hp
  | cons c rest ih =>
    intro t cur hp hlast hok
    obtain ⟨c₁, rfl, hc1ne, hc1last, hc1np, -⟩ := pemBlockOk_shape (hok c (by simp))
    show splitGo false cur (t ++ '\n' :: '\n' :: (('-' :: c₁) ++ nl2JoinTail rest)) =
      (cur.reverse ++ t) :: ('-' :: c₁) :: rest
    rw [splitGo_sep t cur _ hp hlast]
    simp only [List.cons_append]
    rw [splitGo, if_neg (by decide)]
    have hlast1 : ∀ x, c₁.getLast? = some x → isNlChar x = false := by
      intro x hx
      rw [hc1last] at hx
      simp only [Option.some.injEq] at hx
      subst hx
      decide
    rw [ih c₁ ['-'] hc1np hlast1 (fun x hx => hok x (List.mem_cons_of_mem _ hx))]
    simp

/-- C9: the PEM round trip.  For every nonempty list of well-formed PEM
blocks (each given with its trailing newline), splitting the formatted
concatenation recovers exactly the original blocks: `formatPemChain` trims,
collapses line break runs, inserts a blank line at each block junction and
appends a newline; `splitPemChain` trims, splits on runs of two or more line
breaks and appends a newline to each piece. -/
theorem c9_pem_round_trip (cs : List (List Char)) (hne : cs ≠ [])
    (hok : ∀ c ∈ cs, PemBlockOk c) :
    ACME_splitPemChain (ACME_formatPemChain (concatBlocks cs)) =
      cs.map (fun b => b ++ ['\n']) := by
  have h1 : ACME_formatPemChain (concatBlocks cs) = nl2Join cs ++ ['\n'] := by
    unfold ACME_formatPemChain
    rw [concatBlocks_eq cs hne]
    rw [jsTrim_sandwich (nlJoin cs) '-' '-' (nlJoin_head hne hok) (by decide)
      (nlJoin_getLast hne hok) (by decide)]
    rw [show collapseNl (nlJoin cs) = nlJoin cs from
      (collapseNlAux_id (nlJoin cs) (noR_mem_nlJoin hok) (noNlPair_nlJoin hok)).1]
    congr 1
    cases cs with
    | nil => exact absurd rfl hne
    | cons c rest =>
      obtain ⟨c₁, rfl, -, hc1last, -, hc1nd⟩ := pemBlockOk_shape (hok c (by simp))
      show insertBlank (('-' :: c₁) ++ nlJoinTail rest) =
        ('-' :: c₁) ++ nl2JoinTail rest
      rcases hshape : c₁ with _ | ⟨b, bs⟩
      · subst hshape
        simp at hc1last
      · rw [← hshape]
        have hnd : noDashNlDash ('-' :: c₁) = true :=
          (hok ('-' :: c₁) (by simp)).2.2.2.2.2
        have hlast : ('-' :: c₁).getLast? = some '-' :=
          (hok ('-' :: c₁) (by simp)).2.2.1
        exact insertBlank_nlJoinTail rest ('-' :: c₁) hnd hlast
          (fun x hx => hok x (List.mem_cons_of_mem _ hx))
  rw [h1]
  unfold ACME_splitPemChain
  rw [jsTrim_sandwich (nl2Join cs) '-' '-' (nl2Join_head hne hok) (by decide)
    (nl2Join_getLast hne hok) (by decide)]
  cases cs with
  | nil => exact absurd rfl hne
  | cons c rest =>
    have hc := hok c (by simp)
    have hlastc : ∀ x, c.getLast? = some x → isNlChar x = false := by
      intro x hx
      rw [hc.2.2.1] at hx
      simp only [Option.some.injEq] at hx
      subst hx
      decide
    show (splitGo false [] (c ++ nl2JoinTail rest)).map (fun b => b ++ ['\n']) = _
    rw [splitGo_nl2JoinTail rest c [] hc.2.2.2.2.1 hlastc
      (fun x hx => hok x (List.mem_cons_of_mem _ hx))]
    simp

theorem c9_pem_round_trip_witness :
    (("-----BEGIN CERTIFICATE-----\nMIIBAAA\nBBBB\n-----END CERTIFICATE-----".data ::
        "-----BEGIN CERTIFICATE-----\nCCCC\n-----END CERTIFICATE-----".data ::
        [] : List (List Char)) ≠ []) ∧
    (∀ c ∈ ("-----BEGIN CERTIFICATE-----\nMIIBAAA\nBBBB\n-----END CERTIFICATE-----".data ::
        "-----BEGIN CERTIFICATE-----\nCCCC\n-----END CERTIFICATE-----".data ::
        [] : List (List Char)), PemBlockOk c) ∧
    ACME_splitPemChain (ACME_formatPemChain (concatBlocks
        ("-----BEGIN CERTIFICATE-----\nMIIBAAA\nBBBB\n-----END CERTIFICATE-----".data ::
          "-----BEGIN CERTIFICATE-----\nCCCC\n-----END CERTIFICATE-----".data :: []))) =
      ("-----BEGIN CERTIFICATE-----\nMIIBAAA\nBBBB\n-----END CERTIFICATE-----".data ::
        "-----BEGIN CERTIFICATE-----\nCCCC\n-----END CERTIFICATE-----".data ::
        [] : List (List Char)).map (fun b => b ++ ['\n']) :=
  ⟨by decide, by decide,
   c9_pem_round_trip _ (by decide) (by decide)⟩

end AcmeJs
